import Mathlib

/-!
Verification of the streamer components of mlc-llm
(`src/python/mlc_chat/streamer.py`).

The Python file under `src/` is an FFI wrapper: the algorithmic bodies of
`TextStreamer.put`, `TextStreamer.finish`, `StopStringHandler.put`,
`StopStringHandler.finish` and `StopStringHandler.stop_triggered` live in
native code behind `_ffi_api` and are not part of the source tree given
here.  Those bodies are therefore modelled from the specification
(sections 4.1 and 4.2 of the design document); the Python-level dispatch
(the `list` to `ShapeTuple` conversion in `TextStreamer.put`) is embedded
from the Python source directly.

Text is modelled as `List Char`, byte sequences as `List Nat` (each entry
a byte value), token ids as `Nat`.
-/

namespace MlcStreamer

/-! ## UTF-8 byte-level machinery -/

def isCont (b : Nat) : Bool := decide (128 ≤ b) && decide (b < 192)

def cpLen : List Nat → Nat
  | [] => 0
  | b :: rest =>
    if b < 128 then 1
    else if b < 192 then 0
    else if b < 224 then
      match rest with
      | c1 :: _ => if isCont c1 then 2 else 0
      | [] => 0
    else if b < 240 then
      match rest with
      | c1 :: c2 :: _ => if isCont c1 && isCont c2 then 3 else 0
      | _ => 0
    else if b < 248 then
      match rest with
      | c1 :: c2 :: c3 :: _ =>
        if isCont c1 && isCont c2 && isCont c3 then 4 else 0
      | _ => 0
    else 0

theorem cpLen_nil : cpLen [] = 0 := rfl

theorem cpLen_le (l : List Nat) : cpLen l ≤ l.length := by
  rcases l with _ | ⟨b, _ | ⟨c1, _ | ⟨c2, _ | ⟨c3, r⟩⟩⟩⟩ <;>
    simp [cpLen] <;> split_ifs <;> simp_all

theorem cpLen_one (b : Nat) (r : List Nat) (hb : b < 128) :
    cpLen (b :: r) = 1 := by
  rcases r with _ | ⟨c1, _ | ⟨c2, _ | ⟨c3, r⟩⟩⟩ <;> simp [cpLen, hb]

theorem cpLen_two (b c1 : Nat) (r : List Nat) (hb1 : 192 ≤ b) (hb2 : b < 224)
    (hc : isCont c1 = true) : cpLen (b :: c1 :: r) = 2 := by
  rcases r with _ | ⟨c2, _ | ⟨c3, r⟩⟩ <;>
    simp [cpLen, hc] <;> split_ifs <;> omega

theorem cpLen_three (b c1 c2 : Nat) (r : List Nat) (hb1 : 224 ≤ b)
    (hb2 : b < 240) (hc1 : isCont c1 = true) (hc2 : isCont c2 = true) :
    cpLen (b :: c1 :: c2 :: r) = 3 := by
  rcases r with _ | ⟨c3, r⟩ <;> simp [cpLen, hc1, hc2] <;> split_ifs <;>
    simp_all <;> omega

theorem cpLen_four (b c1 c2 c3 : Nat) (r : List Nat) (hb1 : 240 ≤ b)
    (hb2 : b < 248) (hc1 : isCont c1 = true) (hc2 : isCont c2 = true)
    (hc3 : isCont c3 = true) : cpLen (b :: c1 :: c2 :: c3 :: r) = 4 := by
  simp [cpLen, hc1, hc2, hc3] <;> split_ifs <;> simp_all <;> omega

theorem cpLen_stable (l z : List Nat) (h : cpLen l ≠ 0) :
    cpLen (l.take (cpLen l) ++ z) = cpLen l := by
  rcases l with _ | ⟨b, rest⟩
  · exact absurd cpLen_nil h
  by_cases hb1 : b < 128
  · rw [cpLen_one b rest hb1]
    simp [List.take]
    exact cpLen_one b z hb1
  by_cases hb2 : b < 192
  · exfalso
    apply h
    rcases rest with _ | ⟨c1, _ | ⟨c2, _ | ⟨c3, r⟩⟩⟩ <;>
      simp [cpLen] <;> (try split_ifs) <;> omega
  by_cases hb3 : b < 224
  · rcases rest with _ | ⟨c1, r⟩
    · exfalso
      apply h
      simp [cpLen] <;> (try split_ifs) <;> omega
    by_cases hc : isCont c1
    · rw [cpLen_two b c1 r (by omega) hb3 hc]
      simp [List.take]
      exact cpLen_two b c1 z (by omega) hb3 hc
    · exfalso
      apply h
      rcases r with _ | ⟨c2, _ | ⟨c3, r⟩⟩ <;>
        simp [cpLen, hc] <;> (try split_ifs) <;> (try simp_all) <;> omega
  by_cases hb4 : b < 240
  · rcases rest with _ | ⟨c1, _ | ⟨c2, r⟩⟩
    · exfalso; apply h
      simp [cpLen] <;> (try split_ifs) <;> omega
    · exfalso; apply h
      simp [cpLen] <;> (try split_ifs) <;> omega
    by_cases hc : isCont c1 && isCont c2
    · have hc1 : isCont c1 = true := by
        rcases Bool.and_eq_true_iff.mp hc with ⟨h1, _⟩; exact h1
      have hc2 : isCont c2 = true := by
        rcases Bool.and_eq_true_iff.mp hc with ⟨_, h2⟩; exact h2
      rw [cpLen_three b c1 c2 r (by omega) hb4 hc1 hc2]
      simp [List.take]
      exact cpLen_three b c1 c2 z (by omega) hb4 hc1 hc2
    · exfalso; apply h
      rcases r with _ | ⟨c3, r⟩ <;>
        simp [cpLen] <;> (try split_ifs) <;> (try simp_all) <;> omega
  by_cases hb5 : b < 248
  · rcases rest with _ | ⟨c1, _ | ⟨c2, _ | ⟨c3, r⟩⟩⟩
    · exfalso; apply h
      simp [cpLen] <;> (try split_ifs) <;> omega
    · exfalso; apply h
      simp [cpLen] <;> (try split_ifs) <;> omega
    · exfalso; apply h
      simp [cpLen] <;> (try split_ifs) <;> omega
    by_cases hc : isCont c1 && isCont c2 && isCont c3
    · have hc1 : isCont c1 = true := by
        rcases Bool.and_eq_true_iff.mp hc with ⟨h12, _⟩
        rcases Bool.and_eq_true_iff.mp h12 with ⟨h1, _⟩; exact h1
      have hc2 : isCont c2 = true := by
        rcases Bool.and_eq_true_iff.mp hc with ⟨h12, _⟩
        rcases Bool.and_eq_true_iff.mp h12 with ⟨_, h2⟩; exact h2
      have hc3 : isCont c3 = true := by
        rcases Bool.and_eq_true_iff.mp hc with ⟨_, h3⟩; exact h3
      rw [cpLen_four b c1 c2 c3 r (by omega) hb5 hc1 hc2 hc3]
      simp [List.take]
      exact cpLen_four b c1 c2 c3 z (by omega) hb5 hc1 hc2 hc3
    · exfalso; apply h
      simp [cpLen] <;> (try split_ifs) <;> (try simp_all) <;> omega
  · exfalso; apply h
    rcases rest with _ | ⟨c1, _ | ⟨c2, _ | ⟨c3, r⟩⟩⟩ <;>
      simp [cpLen] <;> (try split_ifs) <;> omega

theorem cpLen_append (l z : List Nat) (h : cpLen l ≠ 0) :
    cpLen (l ++ z) = cpLen l := by
  have hstep := cpLen_stable l (l.drop (cpLen l) ++ z) h
  rwa [← List.append_assoc, List.take_append_drop] at hstep

def lvpF : Nat → List Nat → Nat
  | 0, _ => 0
  | fuel + 1, l =>
    if cpLen l = 0 then 0 else cpLen l + lvpF fuel (l.drop (cpLen l))

def lvp (l : List Nat) : Nat := lvpF l.length l

theorem lvpF_fuel (fuel : Nat) : ∀ (fuel' : Nat) (l : List Nat),
    l.length ≤ fuel → l.length ≤ fuel' → lvpF fuel l = lvpF fuel' l := by
  induction fuel with
  | zero =>
    intro fuel' l h h'
    have hnil : l = [] := List.eq_nil_of_length_eq_zero (by omega)
    subst hnil
    cases fuel' <;> simp [lvpF, cpLen_nil]
  | succ fuel ih =>
    intro fuel' l h h'
    cases fuel' with
    | zero =>
      have hnil : l = [] := List.eq_nil_of_length_eq_zero (by omega)
      subst hnil
      simp [lvpF, cpLen_nil]
    | succ fuel' =>
      simp only [lvpF]
      by_cases hc : cpLen l = 0
      · simp [hc]
      · have hle := cpLen_le l
        have hpos : 0 < cpLen l := Nat.pos_of_ne_zero hc
        rw [if_neg hc, if_neg hc,
          ih fuel' (l.drop (cpLen l)) (by simp [List.length_drop]; omega)
            (by simp [List.length_drop]; omega)]

theorem lvp_eq (l : List Nat) :
    lvp l = if cpLen l = 0 then 0 else cpLen l + lvp (l.drop (cpLen l)) := by
  by_cases hc : cpLen l = 0
  · rw [if_pos hc]
    cases hl : l.length with
    | zero =>
      have hnil : l = [] := List.eq_nil_of_length_eq_zero hl
      subst hnil; rfl
    | succ n =>
      rw [lvp, hl]
      simp [lvpF, hc]
  · rw [if_neg hc]
    have hpos : 0 < cpLen l := Nat.pos_of_ne_zero hc
    have hle := cpLen_le l
    cases hl : l.length with
    | zero => omega
    | succ n =>
      have hstep : lvp l = lvpF (n + 1) l := by rw [lvp, hl]
      rw [hstep]
      simp only [lvpF, if_neg hc]
      congr 1
      apply lvpF_fuel
      · simp [List.length_drop]; omega
      · simp [List.length_drop]

theorem lvp_nil : lvp [] = 0 := rfl

theorem lvp_induction (motive : List Nat → Prop)
    (h0 : ∀ l, cpLen l = 0 → motive l)
    (h1 : ∀ l, cpLen l ≠ 0 → motive (l.drop (cpLen l)) → motive l) :
    ∀ l, motive l := by
  have key : ∀ (n : Nat) (l : List Nat), l.length ≤ n → motive l := by
    intro n
    induction n with
    | zero =>
      intro l hl
      have hnil : l = [] := List.eq_nil_of_length_eq_zero (by omega)
      subst hnil
      exact h0 [] cpLen_nil
    | succ n ih =>
      intro l hl
      by_cases hc : cpLen l = 0
      · exact h0 l hc
      · have hpos : 0 < cpLen l := Nat.pos_of_ne_zero hc
        have hle := cpLen_le l
        exact h1 l hc (ih _ (by simp [List.length_drop]; omega))
  exact fun l => key l.length l le_rfl

theorem lvp_le (l : List Nat) : lvp l ≤ l.length := by
  induction l using lvp_induction with
  | h0 l hc =>
    have hl0 : lvp l = 0 := by rw [lvp_eq l, if_pos hc]
    omega
  | h1 l hc ih =>
    have hl : lvp l = cpLen l + lvp (l.drop (cpLen l)) := by
      rw [lvp_eq l, if_neg hc]
    have hle := cpLen_le l
    have hd := List.length_drop (cpLen l) l
    omega

theorem lvp_take (l : List Nat) : lvp (l.take (lvp l)) = lvp l := by
  induction l using lvp_induction with
  | h0 l hc =>
    have hl0 : lvp l = 0 := by rw [lvp_eq l, if_pos hc]
    rw [hl0]
    simp [lvp_nil]
  | h1 l hc ih =>
    have hle := cpLen_le l
    have hl : lvp l = cpLen l + lvp (l.drop (cpLen l)) := by
      rw [lvp_eq l, if_neg hc]
    rw [hl, List.take_add]
    have hstab := cpLen_stable l
      ((l.drop (cpLen l)).take (lvp (l.drop (cpLen l)))) hc
    rw [lvp_eq (l.take (cpLen l) ++
        (l.drop (cpLen l)).take (lvp (l.drop (cpLen l)))),
      if_neg (by rw [hstab]; exact hc), hstab]
    congr 1
    have hlen : (l.take (cpLen l)).length = cpLen l := by
      simp [List.length_take]; omega
    rw [List.drop_left' hlen, ih]

theorem lvp_drop_lvp (l : List Nat) : lvp (l.drop (lvp l)) = 0 := by
  induction l using lvp_induction with
  | h0 l hc =>
    have hl0 : lvp l = 0 := by rw [lvp_eq l, if_pos hc]
    rw [hl0, List.drop_zero]
    exact hl0
  | h1 l hc ih =>
    have hl : lvp l = cpLen l + lvp (l.drop (cpLen l)) := by
      rw [lvp_eq l, if_neg hc]
    rw [hl, ← List.drop_drop]
    exact ih

theorem lvp_append_of_valid (l x : List Nat) (h : lvp l = l.length) :
    lvp (l ++ x) = l.length + lvp x := by
  induction l using lvp_induction with
  | h0 l hc =>
    have hl0 : lvp l = 0 := by rw [lvp_eq l, if_pos hc]
    have hnil : l = [] := List.eq_nil_of_length_eq_zero (by omega)
    subst hnil
    simp
  | h1 l hc ih =>
    have hle := cpLen_le l
    have happ : cpLen (l ++ x) = cpLen l := cpLen_append l x hc
    have hl : lvp l = cpLen l + lvp (l.drop (cpLen l)) := by
      rw [lvp_eq l, if_neg hc]
    have hdlen := List.length_drop (cpLen l) l
    have hdl : lvp (l.drop (cpLen l)) = (l.drop (cpLen l)).length := by omega
    rw [lvp_eq (l ++ x), if_neg (by rw [happ]; exact hc), happ,
      List.drop_append_of_le_length hle, ih hdl]
    omega

/-- A byte list is valid, complete UTF-8 when its longest valid prefix is
the whole list. -/
def validUtf8 (l : List Nat) : Bool := lvp l == l.length

/-- The UTF-8 encoding of U+FFFD, the replacement character. -/
def replacementMarker : List Nat := [239, 191, 189]

/-- Decoded bytes rendered as text: the longest valid-UTF-8 prefix,
with any undecodable tail replaced by the replacement marker. -/
def utf8Text (l : List Nat) : List Nat :=
  l.take (lvp l) ++ (if lvp l = l.length then [] else replacementMarker)

example : lvp [65, 66] = 2 := by decide
example : lvp [228, 189, 160] = 3 := by decide
example : lvp [65, 228, 189] = 1 := by decide
example : lvp [128] = 0 := by decide
example : validUtf8 replacementMarker = true := by decide
example : utf8Text [65, 228, 189] = [65, 239, 191, 189] := by decide

theorem validUtf8_take_lvp (l : List Nat) :
    validUtf8 (l.take (lvp l)) = true := by
  have h1 := lvp_take l
  have h2 := lvp_le l
  simp [validUtf8, h1, List.length_take]
  omega

theorem validUtf8_iff (l : List Nat) :
    validUtf8 l = true ↔ lvp l = l.length := by
  simp [validUtf8]

theorem validUtf8_append (a b : List Nat) (ha : validUtf8 a = true)
    (hb : validUtf8 b = true) : validUtf8 (a ++ b) = true := by
  rw [validUtf8_iff] at ha hb ⊢
  rw [lvp_append_of_valid a b ha, hb, List.length_append]

theorem utf8Text_append_of_valid (a b : List Nat)
    (h : validUtf8 a = true) : utf8Text (a ++ b) = a ++ utf8Text b := by
  rw [validUtf8_iff] at h
  have hl := lvp_append_of_valid a b h
  have hb := lvp_le b
  simp only [utf8Text, hl, List.take_append_eq_append_take, List.length_append]
  rw [List.take_of_length_le (by omega), Nat.add_sub_cancel_left]
  by_cases hc : lvp b = b.length
  · simp [hc]
  · rw [if_neg (by omega), if_neg hc, List.append_assoc]

theorem validUtf8_utf8Text (l : List Nat) :
    validUtf8 (utf8Text l) = true := by
  rw [utf8Text]
  by_cases hc : lvp l = l.length
  · simp only [if_pos hc, List.append_nil]
    exact validUtf8_take_lvp l
  · rw [if_neg hc]
    exact validUtf8_append _ _ (validUtf8_take_lvp l) (by decide)

/-! ## TextStreamer -/

/-- Modelled from the spec: the native body behind
`_ffi_api.TextStreamer` / `TextStreamerPut` / `TextStreamerFinish`
(section 4.1) is not under `src/`.  The spec keeps `pending_tokens`, the
un-emitted trailing tokens, and re-decodes them each call; it adds that
when the decode capability is not cleanly invertible to a token suffix,
any split achieving the correct emitted-byte boundary is acceptable
("the key property is correctness of the boundary, not which exact token
split achieves it").  We therefore keep the state in its
boundary-relevant form: the un-emitted trailing bytes of the decoded
stream.  The external decode capability (`tokenizer_ref`) is a borrowed
function, passed explicitly to `put`. -/
structure TextStreamer where
  pending : List Nat

/-- A freshly constructed streamer holds no pending bytes. -/
def TextStreamer.init : TextStreamer := ⟨[]⟩

/-- Modelled from the spec: `TextStreamer.put` (section 4.1.  The native
body is not under `src/`).  Append the decoded delta to the pending
bytes, emit the longest valid complete-UTF-8 prefix, retain the
un-emitted tail. -/
def TextStreamer.put (decode : List Nat → List Nat) (ts : TextStreamer)
    (delta : List Nat) : List Nat × TextStreamer :=
  let bytes := ts.pending ++ decode delta
  (bytes.take (lvp bytes), ⟨bytes.drop (lvp bytes)⟩)

/-- Modelled from the spec: `TextStreamer.finish` (section 4.1.  The
native body is not under `src/`).  Render all pending bytes, replacing
an undecodable tail with the replacement marker, and clear the state. -/
def TextStreamer.finish (ts : TextStreamer) : List Nat × TextStreamer :=
  (utf8Text ts.pending, ⟨[]⟩)

/-- Feed a sequence of token batches through successive `put` calls,
collecting the emitted chunks. -/
def TextStreamer.runPuts (decode : List Nat → List Nat)
    (ts : TextStreamer) : List (List Nat) → List (List Nat) × TextStreamer
  | [] => ([], ts)
  | c :: cs =>
    let step := ts.put decode c
    let rest := step.2.runPuts decode cs
    (step.1 :: rest.1, rest.2)

theorem put_output_valid (decode : List Nat → List Nat)
    (ts : TextStreamer) (delta : List Nat) :
    validUtf8 (ts.put decode delta).1 = true := by
  unfold TextStreamer.put
  exact validUtf8_take_lvp _

theorem runPuts_outputs_valid (decode : List Nat → List Nat)
    (chunks : List (List Nat)) (ts : TextStreamer) :
    ((ts.runPuts decode chunks).1.all validUtf8) = true := by
  induction chunks generalizing ts with
  | nil => simp [TextStreamer.runPuts]
  | cons c cs ih =>
    simp only [TextStreamer.runPuts, List.all_cons, Bool.and_eq_true]
    exact ⟨put_output_valid decode ts c, ih _⟩

theorem runPuts_flatten (decode : List Nat → List Nat)
    (chunks : List (List Nat)) (ts : TextStreamer) :
    (ts.runPuts decode chunks).1.flatten ++
      utf8Text (ts.runPuts decode chunks).2.pending =
    utf8Text (ts.pending ++ (chunks.map decode).flatten) := by
  induction chunks generalizing ts with
  | nil => simp [TextStreamer.runPuts]
  | cons c cs ih =>
    simp only [TextStreamer.runPuts, TextStreamer.put, List.map_cons,
      List.flatten_cons, List.append_assoc]
    rw [ih]
    have hP : ts.pending ++ (decode c ++ (List.map decode cs).flatten) =
        (ts.pending ++ decode c).take (lvp (ts.pending ++ decode c)) ++
        ((ts.pending ++ decode c).drop (lvp (ts.pending ++ decode c)) ++
          (List.map decode cs).flatten) := by
      rw [← List.append_assoc, ← List.append_assoc, List.take_append_drop]
    rw [hP, utf8Text_append_of_valid _ _ (validUtf8_take_lvp _)]

theorem decode_flatten (decode : List Nat → List Nat)
    (hd : ∀ a b, decode (a ++ b) = decode a ++ decode b)
    (chunks : List (List Nat)) :
    decode chunks.flatten = (chunks.map decode).flatten := by
  have hnil : decode [] = [] := by
    have h2 := hd [] []
    simp only [List.append_nil] at h2
    have hlen : (decode []).length = (decode []).length +
        (decode []).length := by
      conv_lhs => rw [h2]
      simp [List.length_append]
    exact List.eq_nil_of_length_eq_zero (by omega)
  induction chunks with
  | nil => simpa using hnil
  | cons c cs ih => simp [hd c cs.flatten, ih]

/-! ## StopStringHandler -/

/-- The first list is an initial segment of the second
(character-by-character literal comparison). -/
def isPre : List Char → List Char → Bool
  | [], _ => true
  | _ :: _, [] => false
  | a :: s, b :: t => a == b && isPre s t

/-- Some stop string matches at the very start of `t`. -/
def hasMatch (ss : List (List Char)) (t : List Char) : Bool :=
  ss.any (fun s => isPre s t)

/-- The earliest start position in `t` at which some stop string in `ss`
occurs, if any (exact literal match, case-sensitive, no
normalization). -/
def findStop (ss : List (List Char)) : List Char → Option Nat
  | [] => if hasMatch ss [] then some 0 else none
  | c :: t =>
    if hasMatch ss (c :: t) then some 0
    else (findStop ss t).map (· + 1)

/-- The maximum length across the stop strings, 0 when there are none
(`max_len` of the spec). -/
def maxStopLen (ss : List (List Char)) : Nat :=
  ss.foldr (fun s m => max s.length m) 0

/-- Modelled from the spec: the state of the native object behind
`_ffi_api.StopStringHandler` (section 4.2 and section 3 of the design
document; the native body is not under `src/`): the fixed stop strings,
the pending-text buffer and the `stopped` latch. -/
structure StopStringHandler where
  stop_strings : List (List Char)
  pending_text : List Char
  stopped : Bool

/-- A freshly constructed handler: empty buffer, latch down. -/
def StopStringHandler.init (ss : List (List Char)) : StopStringHandler :=
  ⟨ss, [], false⟩

/-- Modelled from the spec: `StopStringHandler.put` (section 4.2 steps
1-5.  The native body is not under `src/`).  In the stopped state it is
a no-op returning empty text; otherwise the input is appended to
`pending_text`, the earliest stop-string occurrence is searched for; on
a match at `p` the prefix before `p` is emitted, the rest discarded and
the latch set; on no match everything but a retained suffix of length
`min (length) (max_len - 1)` is emitted. -/
def StopStringHandler.put (h : StopStringHandler) (input : List Char) :
    List Char × StopStringHandler :=
  if h.stopped then ([], h)
  else
    let pending := h.pending_text ++ input
    match findStop h.stop_strings pending with
    | some p =>
      (pending.take p, { h with pending_text := [], stopped := true })
    | none =>
      let k := min pending.length (maxStopLen h.stop_strings - 1)
      (pending.take (pending.length - k),
        { h with pending_text := pending.drop (pending.length - k) })

/-- Modelled from the spec: `StopStringHandler.finish` (section 4.2.
The native body is not under `src/`).  Empty when stopped, otherwise
emit and clear the whole buffer. -/
def StopStringHandler.finish (h : StopStringHandler) :
    List Char × StopStringHandler :=
  if h.stopped then ([], h) else (h.pending_text, { h with pending_text := [] })

/-- Feed a sequence of text chunks through successive `put` calls,
collecting the emitted chunks. -/
def StopStringHandler.runPuts (h : StopStringHandler) :
    List (List Char) → List (List Char) × StopStringHandler
  | [] => ([], h)
  | c :: cs =>
    let step := h.put c
    let rest := step.2.runPuts cs
    (step.1 :: rest.1, rest.2)

theorem isPre_iff (s t : List Char) :
    isPre s t = true ↔ ∃ r, s ++ r = t := by
  induction s generalizing t with
  | nil => simp [isPre]
  | cons a s ih =>
    cases t with
    | nil => simp [isPre]
    | cons b t =>
      simp only [isPre, Bool.and_eq_true, beq_iff_eq, ih, List.cons_append,
        List.cons.injEq]
      constructor
      · rintro ⟨rfl, r, rfl⟩; exact ⟨r, rfl, rfl⟩
      · rintro ⟨r, rfl, rfl⟩; exact ⟨rfl, r, rfl⟩

theorem isPre_append (s t u : List Char) (h : isPre s t = true) :
    isPre s (t ++ u) = true := by
  rw [isPre_iff] at h ⊢
  obtain ⟨r, rfl⟩ := h
  exact ⟨r ++ u, by simp⟩

theorem hasMatch_append (ss : List (List Char)) (t u : List Char)
    (h : hasMatch ss t = true) : hasMatch ss (t ++ u) = true := by
  simp only [hasMatch, List.any_eq_true] at h ⊢
  obtain ⟨s, hs, hp⟩ := h
  exact ⟨s, hs, isPre_append s t u hp⟩

theorem findStop_none_iff (ss : List (List Char)) (t : List Char) :
    findStop ss t = none ↔ ∀ i, hasMatch ss (t.drop i) = false := by
  induction t with
  | nil =>
    simp only [findStop, List.drop_nil]
    constructor
    · intro h i
      by_cases hm : hasMatch ss []
      · simp [hm] at h
      · simpa using hm
    · intro h
      rw [if_neg (by simp [h 0])]
  | cons c t ih =>
    simp only [findStop]
    constructor
    · intro h i
      by_cases hm : hasMatch ss (c :: t)
      · simp [hm] at h
      · rw [if_neg hm, Option.map_eq_none'] at h
        cases i with
        | zero => simpa using hm
        | succ i => exact (ih.mp h) i
    · intro h
      rw [if_neg (by simpa using h 0), Option.map_eq_none']
      exact ih.mpr (fun i => by simpa using h (i + 1))

theorem findStop_some (ss : List (List Char)) (t : List Char) (p : Nat)
    (h : findStop ss t = some p) :
    hasMatch ss (t.drop p) = true ∧
      ∀ q, q < p → hasMatch ss (t.drop q) = false := by
  induction t generalizing p with
  | nil =>
    simp only [findStop] at h
    by_cases hm : hasMatch ss []
    · rw [if_pos hm] at h
      obtain rfl : p = 0 := by simpa using h.symm
      exact ⟨by simpa using hm, by omega⟩
    · simp [hm] at h
  | cons c t ih =>
    simp only [findStop] at h
    by_cases hm : hasMatch ss (c :: t)
    · rw [if_pos hm] at h
      obtain rfl : p = 0 := by simpa using h.symm
      exact ⟨by simpa using hm, by omega⟩
    · rw [if_neg hm, Option.map_eq_some'] at h
      obtain ⟨p', hp', rfl⟩ := h
      obtain ⟨h1, h2⟩ := ih p' hp'
      refine ⟨by simpa using h1, ?_⟩
      intro q hq
      cases q with
      | zero => simpa using hm
      | succ q => simpa using h2 q (by omega)

theorem hasMatch_drop_of_append (ss : List (List Char)) (a b : List Char)
    (h : ∀ i, hasMatch ss ((a ++ b).drop i) = false) :
    ∀ i, hasMatch ss (a.drop i) = false := by
  intro i
  by_cases hi : i ≤ a.length
  · by_contra hm
    have hm' : hasMatch ss (a.drop i) = true := by
      cases hmm : hasMatch ss (a.drop i)
      · exact absurd hmm hm
      · rfl
    have := hasMatch_append ss (a.drop i) b hm'
    rw [← List.drop_append_of_le_length hi] at this
    rw [h i] at this
    exact Bool.false_ne_true this
  · have hnil : a.drop i = [] := List.drop_eq_nil_of_le (by omega)
    rw [hnil]
    have h2 := h ((a ++ b).length)
    rwa [List.drop_length] at h2

theorem put_stopped (h : StopStringHandler) (s : List Char)
    (hs : h.stopped = true) : h.put s = ([], h) := by
  simp [StopStringHandler.put, hs]

theorem finish_stopped (h : StopStringHandler) (hs : h.stopped = true) :
    h.finish = ([], h) := by
  simp [StopStringHandler.finish, hs]

theorem runPuts_stopped (h : StopStringHandler) (chunks : List (List Char))
    (hs : h.stopped = true) :
    (h.runPuts chunks).1.flatten = [] ∧ (h.runPuts chunks).2 = h := by
  induction chunks with
  | nil => simp [StopStringHandler.runPuts]
  | cons c cs ih =>
    simp only [StopStringHandler.runPuts, put_stopped h c hs,
      List.flatten_cons]
    exact ⟨by simp [ih.1], ih.2⟩

theorem put_active_no_match (h : StopStringHandler) (input P : List Char)
    (k : Nat) (hs : h.stopped = false) (hP : P = h.pending_text ++ input)
    (hn : findStop h.stop_strings P = none)
    (hk : k = min P.length (maxStopLen h.stop_strings - 1)) :
    h.put input = (P.take (P.length - k),
      { h with pending_text := P.drop (P.length - k) }) := by
  subst hP
  subst hk
  simp only [StopStringHandler.put, hs, Bool.false_eq_true, if_false, hn]

theorem put_active_match (h : StopStringHandler) (input : List Char)
    (p : Nat) (hs : h.stopped = false)
    (hm : findStop h.stop_strings (h.pending_text ++ input) = some p) :
    h.put input = ((h.pending_text ++ input).take p,
      { h with pending_text := [], stopped := true }) := by
  simp only [StopStringHandler.put, hs, Bool.false_eq_true, if_false, hm]

theorem runPuts_no_stop (ss : List (List Char)) (chunks : List (List Char)) :
    ∀ (h : StopStringHandler), h.stop_strings = ss → h.stopped = false →
    (∀ i, hasMatch ss ((h.pending_text ++ chunks.flatten).drop i) = false) →
    (h.runPuts chunks).1.flatten ++ (h.runPuts chunks).2.pending_text =
      h.pending_text ++ chunks.flatten ∧
    (h.runPuts chunks).2.stopped = false ∧
    (h.runPuts chunks).2.stop_strings = ss := by
  induction chunks with
  | nil =>
    intro h hss hs _
    simp [StopStringHandler.runPuts, hss, hs]
  | cons c cs ih =>
    intro h hss hs hno
    have hflat : h.pending_text ++ (c :: cs).flatten =
        (h.pending_text ++ c) ++ cs.flatten := by
      simp [List.flatten_cons]
    rw [hflat] at hno
    have hpre : ∀ i, hasMatch ss ((h.pending_text ++ c).drop i) = false :=
      hasMatch_drop_of_append ss (h.pending_text ++ c) cs.flatten hno
    have hnone : findStop h.stop_strings (h.pending_text ++ c) = none := by
      rw [hss]
      exact (findStop_none_iff ss (h.pending_text ++ c)).mpr hpre
    set P := h.pending_text ++ c with hP
    set j := P.length - min P.length (maxStopLen h.stop_strings - 1) with hj
    have hput := put_active_no_match h c P
      (min P.length (maxStopLen h.stop_strings - 1)) hs rfl hnone rfl
    have hjle : j ≤ P.length := by omega
    have hdropP : P.drop j ++ cs.flatten = (P ++ cs.flatten).drop j := by
      rw [List.drop_append_of_le_length hjle]
    have hih := ih { h with pending_text := P.drop j } hss hs
      (by
        intro i
        show hasMatch ss ((P.drop j ++ cs.flatten).drop i) = false
        rw [hdropP, List.drop_drop]
        exact hno (j + i))
    simp only [StopStringHandler.runPuts, hput, List.flatten_cons]
    refine ⟨?_, hih.2.1, hih.2.2⟩
    rw [List.append_assoc, hih.1]
    show P.take j ++ (P.drop j ++ cs.flatten) =
      h.pending_text ++ (c :: cs).flatten
    rw [← List.append_assoc, List.take_append_drop, hflat]

theorem findStop_drop_none (ss : List (List Char)) (t : List Char) (j : Nat)
    (h : findStop ss t = none) : findStop ss (t.drop j) = none := by
  rw [findStop_none_iff] at h ⊢
  intro i
  rw [List.drop_drop]
  exact h (j + i)

theorem findStop_nil_of_no_empty (ss : List (List Char))
    (hne : ([] : List Char) ∉ ss) : findStop ss [] = none := by
  have hm : hasMatch ss [] = false := by
    rw [hasMatch]
    rw [List.any_eq_false]
    intro s hs
    cases s with
    | nil => exact absurd hs hne
    | cons a s => simp [isPre]
  simp [findStop, hm]

/-- The between-calls invariant of the spec (section 3): while the latch
is down, the buffer holds no full stop-string occurrence and is shorter
than the longest stop string. -/
def handlerInv (ss : List (List Char)) (h : StopStringHandler) : Prop :=
  h.stop_strings = ss ∧ (h.stopped = false →
    findStop ss h.pending_text = none ∧
    h.pending_text.length ≤ maxStopLen ss - 1)

theorem put_preserves_inv (ss : List (List Char)) (h : StopStringHandler)
    (s : List Char) (hinv : handlerInv ss h) :
    handlerInv ss (h.put s).2 := by
  by_cases hs : h.stopped = true
  · rw [put_stopped h s hs]
    exact hinv
  · simp only [Bool.not_eq_true] at hs
    cases hm : findStop h.stop_strings (h.pending_text ++ s) with
    | some p =>
      rw [put_active_match h s p hs hm]
      exact ⟨hinv.1, fun hf => by simp at hf⟩
    | none =>
      rw [put_active_no_match h s (h.pending_text ++ s)
        (min (h.pending_text ++ s).length (maxStopLen h.stop_strings - 1))
        hs rfl hm rfl]
      refine ⟨hinv.1, fun _ => ⟨?_, ?_⟩⟩
      · rw [hinv.1] at hm
        exact findStop_drop_none ss (h.pending_text ++ s) _ hm
      · rw [List.length_drop, hinv.1]
        omega

theorem runPuts_preserves_inv (ss : List (List Char))
    (chunks : List (List Char)) :
    ∀ h, handlerInv ss h → handlerInv ss (h.runPuts chunks).2 := by
  induction chunks with
  | nil => exact fun h hinv => hinv
  | cons c cs ih =>
    intro h hinv
    exact ih _ (put_preserves_inv ss h c hinv)

theorem init_inv (ss : List (List Char)) (hne : ([] : List Char) ∉ ss) :
    handlerInv ss (StopStringHandler.init ss) := by
  refine ⟨rfl, fun _ => ⟨findStop_nil_of_no_empty ss hne, ?_⟩⟩
  simp [StopStringHandler.init]

theorem put_empty_config (h : StopStringHandler) (s : List Char)
    (hss : h.stop_strings = []) (hp : h.pending_text = [])
    (hs : h.stopped = false) : h.put s = (s, h) := by
  have hn : findStop h.stop_strings (h.pending_text ++ s) = none := by
    rw [hss]
    rw [findStop_none_iff]
    intro i
    simp [hasMatch]
  have hput := put_active_no_match h s (h.pending_text ++ s)
    (min (h.pending_text ++ s).length (maxStopLen h.stop_strings - 1))
    hs rfl hn rfl
  rw [hput, hss, hp]
  simp only [maxStopLen, List.foldr_nil, Nat.zero_sub, Nat.min_zero,
    Nat.sub_zero, List.nil_append, List.take_length, List.drop_length]
  cases h with
  | mk a b c =>
    simp only at hss hp hs
    subst hss
    subst hp
    subst hs
    rfl

theorem runPuts_empty_config (chunks : List (List Char)) :
    (StopStringHandler.init []).runPuts chunks =
      (chunks, StopStringHandler.init []) := by
  induction chunks with
  | nil => rfl
  | cons c cs ih =>
    simp only [StopStringHandler.runPuts,
      put_empty_config (StopStringHandler.init []) c rfl rfl rfl, ih]

/-! ## The Python-level dispatch of `TextStreamer.put` -/

/-- Modelled from the spec: tvm's `ShapeTuple` (imported from
`tvm.runtime` and not part of this repository) as the carrier of a
sequence of token ids. -/
structure ShapeTuple where
  values : List Nat

/-- Modelled from the spec: constructing a `ShapeTuple` from a Python
list carries over exactly the listed values. -/
def ShapeTuple.ofList (l : List Nat) : ShapeTuple := ⟨l⟩

/-- Modelled from the spec: the native FFI entry
`_ffi_api.TextStreamerPut`, which accepts the streamer handle and a
`ShapeTuple` of delta tokens. -/
def TextStreamer.putShape (decode : List Nat → List Nat)
    (ts : TextStreamer) (st : ShapeTuple) : List Nat × TextStreamer :=
  ts.put decode st.values

/-- The Python-level `TextStreamer.put`
(`src/python/mlc_chat/streamer.py` lines 40-44): a `list` argument is
converted to a `ShapeTuple` and then passed to the FFI entry; a
`ShapeTuple` argument is passed through as is. -/
def TextStreamer.putPy (decode : List Nat → List Nat) (ts : TextStreamer)
    (delta : List Nat ⊕ ShapeTuple) : List Nat × TextStreamer :=
  match delta with
  | Sum.inl l => ts.putShape decode (ShapeTuple.ofList l)
  | Sum.inr st => ts.putShape decode st

/-! ## The claims -/

/-- C1: for every sequence of `put` calls on a TextStreamer, every
string returned by `put` is valid, complete UTF-8 and never ends in the
middle of a multi-byte codepoint sequence. -/
theorem claim_textstreamer_put_utf8_safe (decode : List Nat → List Nat)
    (chunks : List (List Nat)) :
    ((TextStreamer.init.runPuts decode chunks).1.all validUtf8) = true :=
  runPuts_outputs_valid decode chunks TextStreamer.init

/-- C2: for every sequence of token batches fed through
`TextStreamer.put` followed by one `finish` call, the concatenation of
all `put` outputs plus the `finish` output equals the text obtained by
decoding the entire token sequence in one shot, under the hypothesis
that the decode capability is consistent across partial and full ranges
(concatenativity). -/
theorem claim_token_round_trip (decode : List Nat → List Nat)
    (hd : ∀ a b, decode (a ++ b) = decode a ++ decode b)
    (chunks : List (List Nat)) :
    (TextStreamer.init.runPuts decode chunks).1.flatten ++
      ((TextStreamer.init.runPuts decode chunks).2.finish).1 =
    utf8Text (decode chunks.flatten) := by
  have h1 := runPuts_flatten decode chunks TextStreamer.init
  simp only [TextStreamer.init, List.nil_append] at h1
  rw [decode_flatten decode hd chunks]
  simpa [TextStreamer.finish] using h1

/-- Witness for C2 at a concrete decode function and token batches:
the batches decode to the bytes of "A" followed by a three-byte
codepoint split across batches and then "B". -/
theorem claim_token_round_trip_witness :
    (TextStreamer.init.runPuts (fun l => l)
        [[65, 228], [189], [160, 66]]).1.flatten ++
      ((TextStreamer.init.runPuts (fun l => l)
        [[65, 228], [189], [160, 66]]).2.finish).1 =
    utf8Text ((fun (l : List Nat) => l)
      ([[65, 228], [189], [160, 66]] : List (List Nat)).flatten) :=
  claim_token_round_trip (fun l => l) (fun _ _ => rfl)
    [[65, 228], [189], [160, 66]]

/-- C3: for every sequence of text chunks fed through
`StopStringHandler.put` followed by one `finish` call, if no configured
stop string occurs anywhere in the concatenated input text, the
concatenation of all `put` outputs plus the `finish` output equals the
full input text exactly. -/
theorem claim_no_stop_round_trip (ss : List (List Char))
    (chunks : List (List Char))
    (hns : findStop ss chunks.flatten = none) :
    ((StopStringHandler.init ss).runPuts chunks).1.flatten ++
      ((((StopStringHandler.init ss).runPuts chunks).2.finish)).1 =
    chunks.flatten := by
  have hno := (findStop_none_iff ss chunks.flatten).mp hns
  have h := runPuts_no_stop ss chunks (StopStringHandler.init ss) rfl rfl
    (by simpa [StopStringHandler.init] using hno)
  have hfin : ((((StopStringHandler.init ss).runPuts chunks).2.finish)).1 =
      ((StopStringHandler.init ss).runPuts chunks).2.pending_text := by
    simp [StopStringHandler.finish, h.2.1]
  rw [hfin]
  simpa [StopStringHandler.init] using h.1

/-- Witness for C3 at a concrete configuration: stop string "AB", input
chunks "xA" and "y" (the full text "xAy" has no occurrence of "AB"). -/
theorem claim_no_stop_round_trip_witness :
    ((StopStringHandler.init [['A', 'B']]).runPuts
        [['x', 'A'], ['y']]).1.flatten ++
      ((((StopStringHandler.init [['A', 'B']]).runPuts
        [['x', 'A'], ['y']]).2.finish)).1 =
    ([['x', 'A'], ['y']] : List (List Char)).flatten :=
  claim_no_stop_round_trip [['A', 'B']] [['x', 'A'], ['y']] (by decide)

/-- C4: a `put` call in the ACTIVE state for which some stop string
occurs in the extended buffer emits exactly the prefix before the
earliest occurrence start `p`, discards everything at and after `p`,
and sets the latch; `p` is the earliest start of any occurrence. -/
theorem claim_stop_match_truncates (h : StopStringHandler)
    (input : List Char) (p : Nat) (hs : h.stopped = false)
    (hm : findStop h.stop_strings (h.pending_text ++ input) = some p) :
    (h.put input).1 = (h.pending_text ++ input).take p ∧
    (h.put input).2.stopped = true ∧
    (h.put input).2.pending_text = [] ∧
    hasMatch h.stop_strings ((h.pending_text ++ input).drop p) = true ∧
    (∀ q, q < p →
      hasMatch h.stop_strings ((h.pending_text ++ input).drop q) = false) := by
  have hput := put_active_match h input p hs hm
  have hspec := findStop_some h.stop_strings (h.pending_text ++ input) p hm
  rw [hput]
  exact ⟨rfl, rfl, rfl, hspec.1, hspec.2⟩

/-- Witness for C4: stop string "AB", fresh handler, input "xABy"; the
match starts at position 1, so "x" is emitted and the latch is set. -/
theorem claim_stop_match_truncates_witness :
    ((StopStringHandler.init [['A', 'B']]).put ['x', 'A', 'B', 'y']).1 =
      ['x'] ∧
    ((StopStringHandler.init [['A', 'B']]).put
      ['x', 'A', 'B', 'y']).2.stopped = true := by
  have h := claim_stop_match_truncates (StopStringHandler.init [['A', 'B']])
    ['x', 'A', 'B', 'y'] 1 rfl (by decide)
  exact ⟨h.1.trans (by decide), h.2.1⟩

/-- C5: a `put` call in the ACTIVE state with no stop-string occurrence
in the extended buffer emits everything but a retained suffix of length
`k = min (length) (max_len - 1)` and keeps exactly that suffix
pending. -/
theorem claim_no_match_retains_window (h : StopStringHandler)
    (input : List Char) (hs : h.stopped = false)
    (hn : findStop h.stop_strings (h.pending_text ++ input) = none) :
    (h.put input).1 = (h.pending_text ++ input).take
      ((h.pending_text ++ input).length -
        min (h.pending_text ++ input).length
          (maxStopLen h.stop_strings - 1)) ∧
    (h.put input).2.pending_text = (h.pending_text ++ input).drop
      ((h.pending_text ++ input).length -
        min (h.pending_text ++ input).length
          (maxStopLen h.stop_strings - 1)) ∧
    (h.put input).2.pending_text.length =
      min (h.pending_text ++ input).length
        (maxStopLen h.stop_strings - 1) ∧
    (h.put input).2.stopped = false := by
  have hput := put_active_no_match h input (h.pending_text ++ input)
    (min (h.pending_text ++ input).length (maxStopLen h.stop_strings - 1))
    hs rfl hn rfl
  rw [hput]
  refine ⟨rfl, rfl, ?_, hs⟩
  rw [List.length_drop]
  omega

/-- Witness for C5: stop string "ABC" (`max_len` 3), fresh handler,
input "xyAB": no match, so "xy" is emitted and the suffix "AB" of
length `k = min 4 2 = 2` is retained. -/
theorem claim_no_match_retains_window_witness :
    ((StopStringHandler.init [['A', 'B', 'C']]).put
        ['x', 'y', 'A', 'B']).1 = ['x', 'y'] ∧
    ((StopStringHandler.init [['A', 'B', 'C']]).put
        ['x', 'y', 'A', 'B']).2.pending_text = ['A', 'B'] := by
  have h := claim_no_match_retains_window
    (StopStringHandler.init [['A', 'B', 'C']]) ['x', 'y', 'A', 'B']
    rfl (by decide)
  exact ⟨h.1.trans (by decide), h.2.1.trans (by decide)⟩

/-- C6: once the latch is set, every subsequent `put` and `finish` call
returns empty text and leaves the handler (latch included) unchanged,
for arbitrarily many further calls: the STOPPED state is terminal. -/
theorem claim_stopped_is_terminal (h : StopStringHandler)
    (hs : h.stopped = true) :
    (∀ s, h.put s = ([], h)) ∧ h.finish = ([], h) ∧
    (∀ chunks, (h.runPuts chunks).1.flatten = [] ∧
      (h.runPuts chunks).2 = h) :=
  ⟨fun s => put_stopped h s hs, finish_stopped h hs,
    fun chunks => runPuts_stopped h chunks hs⟩

/-- Witness for C6 at a concrete stopped handler. -/
theorem claim_stopped_is_terminal_witness :
    (StopStringHandler.mk [['A']] [] true).put ['x'] =
      ([], StopStringHandler.mk [['A']] [] true) ∧
    (StopStringHandler.mk [['A']] [] true).finish =
      ([], StopStringHandler.mk [['A']] [] true) := by
  have h := claim_stopped_is_terminal
    (StopStringHandler.mk [['A']] [] true) rfl
  exact ⟨h.1 ['x'], h.2.1⟩

/-- C7 as stated is refuted by the degenerate configuration whose only
stop string is the empty string: the freshly constructed handler is
reachable by the empty sequence of `put` calls, its latch is down, yet
its (empty) buffer contains an occurrence of the empty stop string at
position 0. -/
theorem claim_active_invariant_counterexample :
    (((StopStringHandler.init [([] : List Char)]).runPuts []).2.stopped
        = false) ∧
    findStop (StopStringHandler.init [([] : List Char)]).stop_strings
      (((StopStringHandler.init [([] : List Char)]).runPuts
        []).2.pending_text) = some 0 := by
  exact ⟨rfl, rfl⟩

/-- C7 (amended: no configured stop string is empty): in every state
reachable by a sequence of `put` calls, while the latch is down the
buffer contains no full occurrence of any configured stop string and
its length is at most `max_len - 1`. -/
theorem claim_active_invariant (ss : List (List Char))
    (chunks : List (List Char)) (hne : ([] : List Char) ∉ ss)
    (hs : ((StopStringHandler.init ss).runPuts chunks).2.stopped = false) :
    findStop ss
      ((StopStringHandler.init ss).runPuts chunks).2.pending_text = none ∧
    ((StopStringHandler.init ss).runPuts chunks).2.pending_text.length ≤
      maxStopLen ss - 1 := by
  have hinv := runPuts_preserves_inv ss chunks (StopStringHandler.init ss)
    (init_inv ss hne)
  exact hinv.2 hs

/-- Witness for C7 (amended): stop string "AB", one `put` of "xA";
the retained buffer "A" has no occurrence and length 1 = max_len - 1. -/
theorem claim_active_invariant_witness :
    findStop [['A', 'B']]
      ((StopStringHandler.init [['A', 'B']]).runPuts
        [['x', 'A']]).2.pending_text = none ∧
    ((StopStringHandler.init [['A', 'B']]).runPuts
        [['x', 'A']]).2.pending_text.length ≤
      maxStopLen [['A', 'B']] - 1 :=
  claim_active_invariant [['A', 'B']] [['x', 'A']] (by decide) (by decide)

/-- C8: `TextStreamer.finish` is total on every pending state: it
returns text rendered by `utf8Text` (which substitutes the replacement
marker for an undecodable tail instead of failing), that text is valid
UTF-8, and the instance is left in the freshly-constructed state. -/
theorem claim_finish_never_fails (ts : TextStreamer) :
    ts.finish.1 = utf8Text ts.pending ∧
    validUtf8 ts.finish.1 = true ∧
    ts.finish.2 = TextStreamer.init :=
  ⟨rfl, validUtf8_utf8Text ts.pending, rfl⟩

/-- C9: with an empty stop-string collection, every `put` returns its
input unchanged with nothing buffered, and `finish` returns empty
text, in every reachable state. -/
theorem claim_empty_config_pass_through (chunks : List (List Char))
    (s : List Char) :
    (((StopStringHandler.init []).runPuts chunks).2.put s).1 = s ∧
    ((((StopStringHandler.init []).runPuts chunks).2.put s)).2 =
      StopStringHandler.init [] ∧
    ((((StopStringHandler.init []).runPuts chunks).2.finish)).1 = [] := by
  have hrun := runPuts_empty_config chunks
  rw [hrun]
  have hput := put_empty_config (StopStringHandler.init []) s rfl rfl rfl
  rw [hput]
  exact ⟨rfl, rfl, rfl⟩

/-- C10: the Python `TextStreamer.put` converts a `list` argument to a
`ShapeTuple` before delegating, so a `list` and the equivalent
`ShapeTuple` produce the same returned text and the same resulting
state from the same streamer state. -/
theorem claim_put_list_shapetuple_equiv (decode : List Nat → List Nat)
    (ts : TextStreamer) (l : List Nat) :
    ts.putPy decode (Sum.inl l) =
      ts.putPy decode (Sum.inr (ShapeTuple.ofList l)) ∧
    ts.putPy decode (Sum.inl l) = ts.put decode l :=
  ⟨rfl, rfl⟩

end MlcStreamer
